import Mathlib

/-!
Verification development for the trace-reconstruction core of
`repl-trace-checker` (`parse_log.py`, `repl-trace-checker.py`).

The Python sources are embedded shallowly: dictionaries decoded from the
JSON payload of a trace line become structures whose fields mirror the
keys actually read by the code; Python tuples become lists; fallible
operations (dictionary lookups that may raise, `sys.exit`) become
`Except`.  The regular-expression line match, timestamp parsing and JSON
decoding are external collaborators of the core and are passed in as
function parameters.  `system_state.py` (the mappers, `ServerState` and
`SystemState`) is not among the provided sources; the parts of it that
the development needs are modelled from the specification and are marked
as such in their doc comments.
-/

/-- A BSON timestamp as it appears in the oplog JSON:
`{ts: {$timestamp: {t: ..., i: ...}}}`. -/
structure BsonTimestamp where
  t : Nat
  i : Nat
deriving DecidableEq, Repr

/-- Modelled from the spec: `ServerState` lives in `system_state.py`, which is
not among the provided sources.  The spec describes it as the role enum
(leader / follower / candidate-equivalent); `main` uses `ServerState.Follower`
and `parse_log_line` resolves a reported label via `ServerState[name]`. -/
inductive ServerState where
  | Follower
  | Candidate
  | Leader
deriving DecidableEq, Repr

/-- Modelled from the spec: resolution of a reported role label,
`ServerState[raft_mongo['serverState']]`, which raises on an unknown label. -/
def ServerState.fromString : String → Option ServerState
  | "Follower" => some .Follower
  | "Candidate" => some .Candidate
  | "Leader" => some .Leader
  | _ => none

/-- One entry of a server's oplog as the translator records it:
`OplogEntry(term=entry['t'])`. -/
structure OplogEntry where
  term : Int
deriving DecidableEq, Repr

/-- A commit point: `CommitPoint(term=..., index=...)`. -/
structure CommitPoint where
  term : Int
  index : Nat
deriving DecidableEq, Repr

/-- One element of `raft_mongo['log']`: an optime `ts` plus the term `t` in
which the entry was written. -/
structure RawOplogEntry where
  ts : BsonTimestamp
  t : Int
deriving DecidableEq, Repr

/-- `raft_mongo['commitPoint']`: an optime `ts` and a term `t`. -/
structure RawCommitPoint where
  t : Int
  ts : BsonTimestamp
deriving DecidableEq, Repr

/-- The `trace['state']` object (`raft_mongo` in `parse_log_line`), holding the
fields the translator reads. -/
structure RawState where
  term : Int
  serverState : String
  commitPoint : RawCommitPoint
  log : List RawOplogEntry
deriving DecidableEq, Repr

/-- The decoded JSON payload of a trace line, restricted to the keys
`parse_log_line` reads.  `port` stands for `int(trace['host'].split(':')[1])`;
the string surgery on `host` is mechanical and not modelled. -/
structure TraceObj where
  action : String
  port : Nat
  state : RawState
deriving DecidableEq, Repr

/-- `LogLine` from `parse_log.py`: timestamp, location `name:line_number`, the
raw line text, and the decoded JSON object.  The dataclass is declared with
`order=True`, so Python compares `LogLine`s lexicographically by
(timestamp, location, line, obj); `obj` is a dict, which supports `==` but
not `<`.  The datetime timestamp is modelled as a `Nat`. -/
structure LogLine where
  timestamp : Nat
  location : String
  line : String
  obj : TraceObj
deriving DecidableEq, Repr

/-- Errors of the stream/merge stage: `sys.exit(2)` on invalid JSON in `gen`,
and the `TypeError` Python would raise if a comparison inside `heapq.merge`
fell through to the unorderable `obj` dicts. -/
inductive StreamError where
  | invalidJson
  | unorderable
deriving DecidableEq, Repr

/-- Errors of the translation stage, named after the spec's error kinds:
re-registering an optime at a conflicting index, a commit-point optime that
was never registered, and an unrecognized role label. -/
inductive ParseError where
  | nonMonotonicLog
  | unknownOplogReference
  | unknownRoleLabel
deriving DecidableEq, Repr

/-- `fixup_term` from `parse_log_line`: what the implementation calls -1, the
spec calls 0. -/
def fixup_term (term : Int) : Int :=
  if term = -1 then 0 else term

/-- Position of the first occurrence of `p` in `l`, if any. -/
def idxOf : List Nat → Nat → Option Nat
  | [], _ => none
  | q :: rest, p => if q = p then some 0 else (idxOf rest p).map (· + 1)

/-- Modelled from the spec: `PortMapper` lives in `system_state.py`, which is
not among the provided sources.  Per the spec (§4.1), the first call with a
given port allocates the next unused integer id starting at 0 and remembers
the association; subsequent calls return the same id.  The state is the list
of ports in first-seen order, a port's id being its position. -/
structure PortMapper where
  ports : List Nat
deriving DecidableEq, Repr

/-- Modelled from the spec: `get_server_id(port)` returns the remembered id,
or allocates the next one (the number of ports seen so far). -/
def PortMapper.get_server_id (m : PortMapper) (port : Nat) : Nat × PortMapper :=
  match idxOf m.ports port with
  | some i => (i, m)
  | none => (m.ports.length, ⟨m.ports ++ [port]⟩)

/-- Driving `get_server_id` over a list of ports, collecting the ids. -/
def assignIds (m : PortMapper) : List Nat → List Nat
  | [] => []
  | p :: rest =>
    let r := m.get_server_id p
    r.1 :: assignIds r.2 rest

/-- Modelled from the spec: `OplogIndexMapper` lives in `system_state.py`,
which is not among the provided sources.  Per the spec (§4.2) it maps
optimes to indexes: `set_index` records a mapping if absent, is a no-op when
re-setting the same optime to the same index, and fails loudly on a
conflicting index; `get_index` fails with a NotFound condition if the optime
was never registered.  Note the interface carries no server identity; `main`
creates a single instance for the whole run. -/
structure OplogIndexMapper where
  entries : List (BsonTimestamp × Nat)
deriving DecidableEq, Repr

/-- First binding of `ts` in an association list of optime-to-index entries. -/
def omLookup : List (BsonTimestamp × Nat) → BsonTimestamp → Option Nat
  | [], _ => none
  | e :: rest, ts => if e.1 = ts then some e.2 else omLookup rest ts

/-- Lookup of a registered optime. -/
def OplogIndexMapper.lookup (m : OplogIndexMapper) (ts : BsonTimestamp) : Option Nat :=
  omLookup m.entries ts

/-- Modelled from the spec: record an optime-to-index mapping; idempotent on
the same index, loud failure on a conflicting one. -/
def OplogIndexMapper.set_index (m : OplogIndexMapper) (ts : BsonTimestamp) (index : Nat) :
    Except ParseError OplogIndexMapper :=
  match m.lookup ts with
  | some i => if i = index then .ok m else .error .nonMonotonicLog
  | none => .ok ⟨m.entries ++ [(ts, index)]⟩

/-- Modelled from the spec: look an optime up, failing with the NotFound
condition (`UnknownOplogReference`) if it was never registered. -/
def OplogIndexMapper.get_index (m : OplogIndexMapper) (ts : BsonTimestamp) :
    Except ParseError Nat :=
  match m.lookup ts with
  | some i => .ok i
  | none => .error .unknownOplogReference

/-- `PortMapper()` as constructed at the top of `main`. -/
def PortMapper.init : PortMapper := ⟨[]⟩

/-- `OplogIndexMapper()` as constructed at the top of `main`. -/
def OplogIndexMapper.init : OplogIndexMapper := ⟨[]⟩

/-- `LogEvent` from `parse_log.py`: one server's state change at one instant. -/
structure LogEvent where
  timestamp : Nat
  location : String
  line : String
  action : String
  server_id : Nat
  term : Int
  state : ServerState
  commitPoint : CommitPoint
  log : List OplogEntry
deriving DecidableEq, Repr

/-- The loop body of `generate_oplog_entries` in `parse_log_line`: walk
`raft_mongo['log']` with `enumerate`, registering each entry's optime at its
position and collecting `OplogEntry(term=entry['t'])`. -/
def registerEntries : OplogIndexMapper → Nat → List RawOplogEntry →
    Except ParseError (List OplogEntry × OplogIndexMapper)
  | om, _, [] => .ok ([], om)
  | om, index, entry :: rest =>
    match om.set_index entry.ts index with
    | .error e => .error e
    | .ok om2 =>
      match registerEntries om2 (index + 1) rest with
      | .error e => .error e
      | .ok (entries, om3) => .ok (⟨entry.t⟩ :: entries, om3)

/-- `parse_log_line` from `parse_log.py`: transform a `LogLine` into a
`LogEvent`, updating the two mappers.  Mirrors the source's order of
operations: register the event's own log, resolve the commit point, then
build the `LogEvent` (resolving the server id and the role label). -/
def parse_log_line (log_line : LogLine) (port_mapper : PortMapper)
    (oplog_index_mapper : OplogIndexMapper) :
    Except ParseError (LogEvent × PortMapper × OplogIndexMapper) :=
  let trace := log_line.obj
  let raft_mongo := trace.state
  let port := trace.port
  match registerEntries oplog_index_mapper 0 raft_mongo.log with
  | .error e => .error e
  | .ok (log, om) =>
    match om.get_index raft_mongo.commitPoint.ts with
    | .error e => .error e
    | .ok cpIndex =>
      let commitPoint : CommitPoint := ⟨fixup_term raft_mongo.commitPoint.t, cpIndex⟩
      let r := port_mapper.get_server_id port
      match ServerState.fromString raft_mongo.serverState with
      | none => .error .unknownRoleLabel
      | some st =>
        .ok (⟨log_line.timestamp, log_line.location, log_line.line, trace.action,
              r.1, fixup_term raft_mongo.term, st, commitPoint, log⟩, r.2, om)

/-- `SystemState` fields as `main` and `update_state` use them; the per-server
tuples become lists indexed by server id. -/
structure SystemState where
  n_servers : Nat
  action : String
  globalCurrentTerm : Int
  log : List (List OplogEntry)
  state : List ServerState
  commitPoint : List CommitPoint
  serverLogLocation : String
deriving DecidableEq, Repr

/-- `update_state` from `repl-trace-checker.py`: copy the per-server tuples
with position `log_event.server_id` overwritten, and replace the scalar
fields by the event's. -/
def update_state (current_state : SystemState) (log_event : LogEvent) : SystemState :=
  { n_servers := current_state.n_servers
    action := log_event.action
    globalCurrentTerm := log_event.term
    log := current_state.log.set log_event.server_id log_event.log
    state := current_state.state.set log_event.server_id log_event.state
    commitPoint := current_state.commitPoint.set log_event.server_id log_event.commitPoint
    serverLogLocation := log_event.location }

/-- The initial `SystemState` synthesized at the top of `main`. -/
def initialState (n_servers : Nat) : SystemState :=
  { n_servers := n_servers
    action := "Init"
    globalCurrentTerm := -1
    log := List.replicate n_servers []
    state := List.replicate n_servers ServerState.Follower
    commitPoint := List.replicate n_servers ⟨-1, 0⟩
    serverLogLocation := "" }

/-- The accumulation aspect of `main`'s loop, over already-translated events:
append the current snapshot to the trace, then replace it by
`update_state(current, event)`; the final snapshot is returned but not
appended. -/
def runEvents : SystemState → List LogEvent → List SystemState × SystemState
  | current, [] => ([], current)
  | current, e :: rest =>
    let r := runEvents (update_state current e) rest
    (current :: r.1, r.2)

/-- The inner generator `gen` of `merge_log_streams`, with its per-source
line counter made explicit (the counter starts at 0 and is incremented at the
top of the loop, so the first line is numbered 1).  The regular-expression
match (plus timestamp parsing) and the JSON decoding are the external
line-parsing collaborators and are passed in: `matchFn` returns the parsed
timestamp and the JSON group of a matching line, `jsonFn` decodes the JSON
group.  A non-matching line is skipped (`continue`); a matching line whose
JSON fails to decode aborts with `sys.exit(2)`. -/
def genAux (matchFn : String → Option (Nat × String)) (jsonFn : String → Option TraceObj)
    (name : String) : Nat → List String → Except StreamError (List LogLine)
  | _, [] => .ok []
  | line_number, line :: rest =>
    match matchFn line with
    | none => genAux matchFn jsonFn name (line_number + 1) rest
    | some (ts, js) =>
      match jsonFn js with
      | none => .error .invalidJson
      | some obj =>
        match genAux matchFn jsonFn name (line_number + 1) rest with
        | .error e => .error e
        | .ok tail =>
          .ok ({ timestamp := ts
                 location := name ++ ":" ++ toString (line_number + 1)
                 line := line
                 obj := obj } :: tail)

/-- `gen` applied to a whole source, with the counter starting at 0. -/
def gen (matchFn : String → Option (Nat × String)) (jsonFn : String → Option TraceObj)
    (name : String) (stream : List String) : Except StreamError (List LogLine) :=
  genAux matchFn jsonFn name 0 stream

/-- The comparison `heapq.merge` performs between two `LogLine` values.
Python's dataclass `order=True` compares the field tuples lexicographically:
timestamp, then location, then line, then obj.  Comparing the `obj` dicts
with `<` raises `TypeError`; it is reached only when two distinct lines agree
on the first three fields (impossible in a real run, where `timestamp` and
`obj` are computed from `line` and `location` is unique per line). -/
def llLt (a b : LogLine) : Except StreamError Bool :=
  if a = b then .ok false
  else if a.timestamp ≠ b.timestamp then .ok (decide (a.timestamp < b.timestamp))
  else if a.location ≠ b.location then .ok (decide (a.location < b.location))
  else if a.line ≠ b.line then .ok (decide (a.line < b.line))
  else .error .unorderable

/-- The selection `heapq.merge` makes at each step.  The heap holds one entry
`[value, order, next]` per non-exhausted input iterator, and pops the minimum
under Python list comparison: by `value` (`llLt`), ties broken by `order`,
the iterator's position, so an earlier stream wins a tie.  `findMin` returns
the position and head of that minimum among the current stream heads. -/
def findMin : List (List LogLine) → Except StreamError (Option (Nat × LogLine))
  | [] => .ok none
  | [] :: rest =>
    match findMin rest with
    | .error e => .error e
    | .ok none => .ok none
    | .ok (some (k, bh)) => .ok (some (k + 1, bh))
  | (h :: _) :: rest =>
    match findMin rest with
    | .error e => .error e
    | .ok none => .ok (some (0, h))
    | .ok (some (k, bh)) =>
      match llLt bh h with
      | .error e => .error e
      | .ok true => .ok (some (k + 1, bh))
      | .ok false => .ok (some (0, h))

/-- Remove the head of the `k`-th stream (advance that iterator). -/
def popAt (ss : List (List LogLine)) (k : Nat) : List (List LogLine) :=
  ss.set k (ss.getD k []).tail

/-- The k-way merge loop of `heapq.merge`, fuelled by the total number of
in-flight elements: repeatedly pop the minimum head and emit it. -/
def kMergeFuel : Nat → List (List LogLine) → Except StreamError (List LogLine)
  | 0, _ => .ok []
  | fuel + 1, ss =>
    match findMin ss with
    | .error e => .error e
    | .ok none => .ok []
    | .ok (some (k, h)) =>
      match kMergeFuel fuel (popAt ss k) with
      | .error e => .error e
      | .ok rest => .ok (h :: rest)

/-- `heapq.merge` over the per-source event sequences. -/
def heapq_merge (ss : List (List LogLine)) : Except StreamError (List LogLine) :=
  kMergeFuel ss.flatten.length ss

/-- `merge_log_streams` from `parse_log.py`: run `gen` on every named source
and merge the resulting event sequences with `heapq.merge`. -/
def merge_log_streams (matchFn : String → Option (Nat × String))
    (jsonFn : String → Option TraceObj) (streams : List (String × List String)) :
    Except StreamError (List LogLine) :=
  match streams.mapM (fun s => gen matchFn jsonFn s.1 s.2) with
  | .error e => .error e
  | .ok gens => heapq_merge gens

/-- Non-decreasing timestamp order on log lines. -/
def tsLe (a b : LogLine) : Prop := a.timestamp ≤ b.timestamp

instance : DecidableRel tsLe := fun a b => Nat.decLe a.timestamp b.timestamp

/-- Cross-stream comparability: any two elements of distinct streams that
agree on timestamp, location and line are equal outright.  This holds of
every collection `gen` can produce (timestamp and obj are functions of the
line text, and location is unique per source line), and it is exactly what
keeps `heapq.merge`'s comparisons away from the unorderable `obj` dicts. -/
def CrossOrd (ss : List (List LogLine)) : Prop :=
  ∀ i, i < ss.length → ∀ j, j < ss.length → i ≠ j →
    ∀ a ∈ ss.getD i [], ∀ b ∈ ss.getD j [],
      a.timestamp = b.timestamp → a.location = b.location → a.line = b.line → a = b

instance crossOrdPairDec (a b : LogLine) :
    Decidable (a.timestamp = b.timestamp → a.location = b.location → a.line = b.line → a = b) := by
  infer_instance

instance crossOrdBallDec (s t : List LogLine) :
    Decidable (∀ a ∈ s, ∀ b ∈ t,
      a.timestamp = b.timestamp → a.location = b.location → a.line = b.line → a = b) := by
  infer_instance

instance : DecidablePred CrossOrd := fun ss => by
  unfold CrossOrd
  infer_instance

/-- `main`'s loop in full: translate each merged line with the single shared
pair of mappers, appending the pre-delta snapshot to the trace; a translation
failure aborts the whole run. -/
def processLines : PortMapper → OplogIndexMapper → SystemState → List LogLine →
    Except ParseError (List SystemState × SystemState)
  | _, _, current, [] => .ok ([], current)
  | pm, om, current, l :: rest =>
    match parse_log_line l pm om with
    | .error e => .error e
    | .ok (ev, pm2, om2) =>
      match processLines pm2 om2 (update_state current ev) rest with
      | .error e => .error e
      | .ok (tr, fin) => .ok (current :: tr, fin)

/-- A concrete optime used by the shared-mapper scenarios below. -/
def tsShared : BsonTimestamp := ⟨1, 1⟩

/-- Raw event of the server at port 27017: its own log contains `tsShared` at
position 0, and its commit point references `tsShared`. -/
def rawA : TraceObj :=
  { action := "AppendOplog"
    port := 27017
    state :=
      { term := 1
        serverState := "Leader"
        commitPoint := ⟨1, tsShared⟩
        log := [⟨tsShared, 1⟩] } }

/-- The merged log line carrying `rawA`. -/
def lineA : LogLine := { timestamp := 10, location := "a.log:1", line := "a1", obj := rawA }

/-- Raw event of the server at port 27018: its own reported log is empty, yet
its commit point references `tsShared`, an optime that never appears in this
server's own log. -/
def rawB : TraceObj :=
  { action := "AdvanceCommitPoint"
    port := 27018
    state :=
      { term := 1
        serverState := "Follower"
        commitPoint := ⟨1, tsShared⟩
        log := [] } }

/-- The merged log line carrying `rawB`. -/
def lineB : LogLine := { timestamp := 20, location := "b.log:1", line := "b1", obj := rawB }

/-- The mapper-threading aspect of `main`'s loop: translate each merged line
in order, passing the single shared `PortMapper`/`OplogIndexMapper` pair from
one `parse_log_line` call to the next, and return the final pair; a
translation failure aborts as in `main`. -/
def translateLines : List LogLine → PortMapper → OplogIndexMapper →
    Except ParseError (PortMapper × OplogIndexMapper)
  | [], pm, om => .ok (pm, om)
  | l :: rest, pm, om =>
    match parse_log_line l pm om with
    | .error e => .error e
    | .ok (_, pm2, om2) => translateLines rest pm2 om2

/-- A second concrete optime, distinct from `tsShared`. -/
def tsOther : BsonTimestamp := ⟨2, 1⟩

/-- Raw event of the server at port 27019: its log reports `tsShared` at
position 1, although `tsShared` is registered at position 0 once server A's
event has been translated — a coincidentally equal optime at a different log
position. -/
def rawC : TraceObj :=
  { action := "AppendOplog"
    port := 27019
    state :=
      { term := 1
        serverState := "Follower"
        commitPoint := ⟨1, tsOther⟩
        log := [⟨tsOther, 1⟩, ⟨tsShared, 2⟩] } }

/-- The merged log line carrying `rawC`. -/
def lineC : LogLine := { timestamp := 30, location := "c.log:1", line := "c1", obj := rawC }

/-- A concrete delta event used by witnesses. -/
def evW : LogEvent :=
  { timestamp := 5
    location := "a.log:2"
    line := "x"
    action := "BecomePrimaryByMagic"
    server_id := 0
    term := 1
    state := .Leader
    commitPoint := ⟨1, 0⟩
    log := [⟨1⟩] }

/-- A concrete line matcher used by witnesses: only the line "T" matches, with
timestamp 7 and JSON group "j". -/
def matchW : String → Option (Nat × String) :=
  fun l => if l = "T" then some (7, "j") else none

/-- A concrete JSON decoder used by witnesses: only the group "j" decodes. -/
def jsonW : String → Option TraceObj :=
  fun s => if s = "j" then some rawA else none

/-! Helper lemmas. -/

theorem omLookup_append_of_none {l : List (BsonTimestamp × Nat)} {ts : BsonTimestamp}
    (h : omLookup l ts = none) (i : Nat) : omLookup (l ++ [(ts, i)]) ts = some i := by
  induction l with
  | nil => simp [omLookup]
  | cons e rest ih =>
    simp only [omLookup] at h ⊢
    split at h
    · exact absurd h (by simp)
    · rename_i hne
      rw [if_neg hne]
      exact ih h

theorem runEvents_append (es : List LogEvent) :
    ∀ s : SystemState, (runEvents s es).1 ++ [(runEvents s es).2] =
      List.scanl update_state s es := by
  induction es with
  | nil => intro s; simp [runEvents, List.scanl]
  | cons e rest ih =>
    intro s
    simp only [runEvents, List.scanl, List.cons_append, List.cons.injEq, true_and]
    exact ih (update_state s e)

theorem runEvents_length (es : List LogEvent) :
    ∀ s : SystemState, (runEvents s es).1.length = es.length := by
  induction es with
  | nil => intro s; rfl
  | cons e rest ih => intro s; simp [runEvents, ih]

theorem runEvents_snd (es : List LogEvent) :
    ∀ s : SystemState, (runEvents s es).2 = es.foldl update_state s := by
  induction es with
  | nil => intro s; rfl
  | cons e rest ih => intro s; simp [runEvents, List.foldl, ih]

/-- C2: For every sequence of translated events processed in merged order,
starting from the synthesized initial snapshot, the loop appends the current
snapshot to the trace before applying each delta; the final post-delta
snapshot is the terminal state but is not itself appended, so the trace has
exactly one entry per event and begins with the initial snapshot. -/
theorem C2_trace_accumulation (n : Nat) (events : List LogEvent) :
    (runEvents (initialState n) events).1.length = events.length ∧
    (runEvents (initialState n) events).1 ++ [(runEvents (initialState n) events).2] =
      List.scanl update_state (initialState n) events ∧
    (runEvents (initialState n) events).2 = events.foldl update_state (initialState n) ∧
    (events ≠ [] → (runEvents (initialState n) events).1.head? = some (initialState n)) := by
  refine ⟨runEvents_length events _, runEvents_append events _, runEvents_snd events _, ?_⟩
  intro h
  cases events with
  | nil => exact absurd rfl h
  | cons e rest => rfl

/-- Witness for C2 at a concrete event list. -/
theorem C2_trace_accumulation_witness :
    ([evW] ≠ ([] : List LogEvent)) ∧
    (runEvents (initialState 2) [evW]).1.head? = some (initialState 2) :=
  ⟨by decide, (C2_trace_accumulation 2 [evW]).2.2.2 (by decide)⟩

/-- C3: `update_state` returns a new snapshot in which only position
`e.server_id` of the `log`, `state` and `commitPoint` tuples is overwritten;
every other position is carried over unchanged, `n_servers` is unchanged, and
the scalar fields `action`, `globalCurrentTerm` and `serverLogLocation` are
replaced by the event's values.  The input snapshot is a value in this pure
embedding, mirroring the source's copy-on-write of immutable tuples: the
caller's retained snapshots are unaffected. -/
theorem C3_update_state_frame (s : SystemState) (e : LogEvent)
    (hl : e.server_id < s.log.length) (hs : e.server_id < s.state.length)
    (hc : e.server_id < s.commitPoint.length) :
    (update_state s e).n_servers = s.n_servers ∧
    (update_state s e).action = e.action ∧
    (update_state s e).globalCurrentTerm = e.term ∧
    (update_state s e).serverLogLocation = e.location ∧
    (update_state s e).log[e.server_id]? = some e.log ∧
    (update_state s e).state[e.server_id]? = some e.state ∧
    (update_state s e).commitPoint[e.server_id]? = some e.commitPoint ∧
    ∀ j, j ≠ e.server_id →
      (update_state s e).log[j]? = s.log[j]? ∧
      (update_state s e).state[j]? = s.state[j]? ∧
      (update_state s e).commitPoint[j]? = s.commitPoint[j]? := by
  refine ⟨rfl, rfl, rfl, rfl, ?_, ?_, ?_, ?_⟩
  · simp [update_state, List.getElem?_set, hl]
  · simp [update_state, List.getElem?_set, hs]
  · simp [update_state, List.getElem?_set, hc]
  · intro j hj
    refine ⟨?_, ?_, ?_⟩ <;>
      simp [update_state, List.getElem?_set_ne (Ne.symm hj)]

/-- Witness for C3 at a concrete snapshot and event. -/
theorem C3_update_state_frame_witness :
    evW.server_id < (initialState 2).log.length ∧
    ((update_state (initialState 2) evW).n_servers = (initialState 2).n_servers ∧
     (update_state (initialState 2) evW).action = evW.action ∧
     (update_state (initialState 2) evW).globalCurrentTerm = evW.term ∧
     (update_state (initialState 2) evW).serverLogLocation = evW.location ∧
     (update_state (initialState 2) evW).log[evW.server_id]? = some evW.log ∧
     (update_state (initialState 2) evW).state[evW.server_id]? = some evW.state ∧
     (update_state (initialState 2) evW).commitPoint[evW.server_id]? = some evW.commitPoint ∧
     ∀ j, j ≠ evW.server_id →
       (update_state (initialState 2) evW).log[j]? = (initialState 2).log[j]? ∧
       (update_state (initialState 2) evW).state[j]? = (initialState 2).state[j]? ∧
       (update_state (initialState 2) evW).commitPoint[j]? = (initialState 2).commitPoint[j]?) :=
  ⟨by decide, C3_update_state_frame (initialState 2) evW (by decide) (by decide) (by decide)⟩

/-- C5 counterexample: the synthesized initial snapshot's global term is the
raw sentinel -1, not the sentinel normalized to the initial term value 0 as
the claim states. -/
theorem C5_initial_term_counterexample :
    (initialState 3).globalCurrentTerm = -1 ∧ fixup_term (-1) = 0 ∧
    (initialState 3).globalCurrentTerm ≠ fixup_term (-1) := by
  decide

/-- C5 (amended): the synthesized initial snapshot has every server in the
Follower role with an empty log and the degenerate commit point
(term -1, index 0), action "Init", and global term equal to the raw
pre-election sentinel -1 (not normalized). -/
theorem C5_initial_state_amended (n : Nat) :
    (initialState n).state = List.replicate n ServerState.Follower ∧
    (initialState n).log = List.replicate n ([] : List OplogEntry) ∧
    (initialState n).commitPoint = List.replicate n ⟨-1, 0⟩ ∧
    (initialState n).action = "Init" ∧
    (initialState n).globalCurrentTerm = -1 ∧
    (initialState n).n_servers = n ∧
    (initialState n).serverLogLocation = "" :=
  ⟨rfl, rfl, rfl, rfl, rfl, rfl, rfl⟩

/-- C6: term normalization maps the sentinel -1 to 0 and is the identity on
every other integer, and translation applies it both to the server's
self-reported current term and to the term component of its commit point. -/
theorem C6_term_normalization :
    fixup_term (-1) = 0 ∧ (∀ t : Int, t ≠ -1 → fixup_term t = t) ∧
    ∀ (l : LogLine) (pm : PortMapper) (om : OplogIndexMapper)
      (ev : LogEvent) (pm2 : PortMapper) (om2 : OplogIndexMapper),
      parse_log_line l pm om = .ok (ev, pm2, om2) →
      ev.term = fixup_term l.obj.state.term ∧
      ev.commitPoint.term = fixup_term l.obj.state.commitPoint.t := by
  refine ⟨by decide, ?_, ?_⟩
  · intro t ht
    simp [fixup_term, ht]
  · intro l pm om ev pm2 om2 h
    unfold parse_log_line at h
    simp only [] at h
    split at h
    · exact absurd h (by simp)
    · split at h
      · exact absurd h (by simp)
      · split at h
        · exact absurd h (by simp)
        · simp only [Except.ok.injEq, Prod.mk.injEq] at h
          obtain ⟨hev, -, -⟩ := h
          subst hev
          exact ⟨rfl, rfl⟩

/-- Witness for C6: the identity branch at 5, and both normalizations on the
translation of the concrete line `lineA`. -/
theorem C6_term_normalization_witness :
    ((5 : Int) ≠ -1 ∧ fixup_term 5 = 5) ∧
    ∃ (ev : LogEvent) (pm2 : PortMapper) (om2 : OplogIndexMapper),
      parse_log_line lineA PortMapper.init OplogIndexMapper.init = .ok (ev, pm2, om2) ∧
      ev.term = fixup_term lineA.obj.state.term ∧
      ev.commitPoint.term = fixup_term lineA.obj.state.commitPoint.t :=
  ⟨⟨by decide, C6_term_normalization.2.1 5 (by decide)⟩,
   ⟨_, _, _, rfl,
    C6_term_normalization.2.2 lineA PortMapper.init OplogIndexMapper.init _ _ _ rfl⟩⟩

theorem idxOf_eq_none_iff {l : List Nat} {p : Nat} : idxOf l p = none ↔ p ∉ l := by
  induction l with
  | nil => simp [idxOf]
  | cons q rest ih =>
    simp only [idxOf, List.mem_cons]
    split
    · simp_all
    · simp only [Option.map_eq_none', ih]
      constructor
      · rintro hn ⟨rfl | hm⟩ <;> simp_all
      · intro hn
        exact fun hm => hn (Or.inr hm)

theorem idxOf_append_self {l : List Nat} {p : Nat} (h : idxOf l p = none) :
    idxOf (l ++ [p]) p = some l.length := by
  induction l with
  | nil => simp [idxOf]
  | cons q rest ih =>
    simp only [idxOf] at h ⊢
    split at h
    · exact absurd h (by simp)
    · rename_i hq
      simp only [Option.map_eq_none'] at h
      simp [hq, ih h]

theorem assignIds_fresh (ports : List Nat) :
    ∀ m : PortMapper, (∀ p ∈ ports, p ∉ m.ports) → ports.Nodup →
      assignIds m ports = List.range' m.ports.length ports.length := by
  induction ports with
  | nil => intro m _ _; rfl
  | cons p rest ih =>
    intro m hfresh hnodup
    have hp : idxOf m.ports p = none :=
      idxOf_eq_none_iff.mpr (hfresh p (List.mem_cons_self p rest))
    have hrest : ∀ q ∈ rest, q ∉ m.ports ++ [p] := by
      intro q hq hmem
      rcases List.mem_append.mp hmem with hm | hm
      · exact hfresh q (List.mem_cons_of_mem p hq) hm
      · rcases List.mem_singleton.mp hm with rfl
        exact (List.nodup_cons.mp hnodup).1 hq
    have h2 := ih ⟨m.ports ++ [p]⟩ hrest (List.nodup_cons.mp hnodup).2
    simp only [assignIds, PortMapper.get_server_id, hp]
    rw [h2]
    simp [List.range'_succ]

/-- C8: the port-to-server-id mapper is a stable first-seen-order enumeration:
calling it twice with the same port returns the same id, and K distinct ports
first observed in order receive exactly the ids 0..K-1 in that order. -/
theorem C8_port_mapper_stability :
    (∀ (m : PortMapper) (p : Nat),
        ((m.get_server_id p).2.get_server_id p).1 = (m.get_server_id p).1) ∧
    ∀ ports : List Nat, ports.Nodup →
      assignIds PortMapper.init ports = List.range ports.length := by
  constructor
  · intro m p
    unfold PortMapper.get_server_id
    cases hp : idxOf m.ports p with
    | some i => simp [hp]
    | none => simp [idxOf_append_self hp]
  · intro ports hnodup
    have := assignIds_fresh ports PortMapper.init (by simp [PortMapper.init]) hnodup
    simpa [PortMapper.init, List.range_eq_range'] using this

/-- Witness for C8 at two concrete distinct ports. -/
theorem C8_port_mapper_stability_witness :
    ([27017, 27018] : List Nat).Nodup ∧
    assignIds PortMapper.init [27017, 27018] = List.range 2 :=
  ⟨by decide, C8_port_mapper_stability.2 [27017, 27018] (by decide)⟩

/-- C1 counterexample: `main` creates one `OplogIndexMapper` for the whole
run and `set_index`/`get_index` carry no server identity, so index spaces are
not independent per server.  Server B (port 27018, server id 1) reports a
commit point optime that appears only in server A's log (port 27017, server
id 0): translating B's line alone fails the lookup, but after A's line has
been translated with the same shared mapper, B's lookup succeeds and returns
the index registered by A — A's registration affected B's lookup. -/
theorem C1_shared_mapper_counterexample :
    parse_log_line lineB PortMapper.init OplogIndexMapper.init =
      .error .unknownOplogReference ∧
    ((parse_log_line lineA PortMapper.init OplogIndexMapper.init).toOption.bind fun r =>
        (parse_log_line lineB r.2.1 r.2.2).toOption.map fun r2 =>
          (r.1.server_id, r2.1.server_id, r2.1.commitPoint.index)) = some (0, 1, 0) := by
  constructor <;> rfl

theorem omLookup_append_of_some {l l2 : List (BsonTimestamp × Nat)} {ts : BsonTimestamp}
    {i : Nat} (h : omLookup l ts = some i) : omLookup (l ++ l2) ts = some i := by
  induction l with
  | nil => simp [omLookup] at h
  | cons e rest ih =>
    simp only [List.cons_append, omLookup] at h ⊢
    split at h
    · rename_i he
      rw [if_pos he]
      exact h
    · rename_i he
      rw [if_neg he]
      exact ih h

theorem get_index_ok_iff {om : OplogIndexMapper} {ts : BsonTimestamp} {idx : Nat} :
    om.get_index ts = .ok idx ↔ om.lookup ts = some idx := by
  unfold OplogIndexMapper.get_index
  split
  · rename_i i hi
    rw [hi]
    simp
  · rename_i hi
    rw [hi]
    simp

theorem set_index_preserves {om om2 : OplogIndexMapper} {ts ts2 : BsonTimestamp}
    {idx idx2 : Nat} (h : om.lookup ts = some idx)
    (hs : om.set_index ts2 idx2 = .ok om2) : om2.lookup ts = some idx := by
  unfold OplogIndexMapper.set_index at hs
  split at hs
  · split at hs
    · cases hs
      exact h
    · exact absurd hs (by simp)
  · cases hs
    exact omLookup_append_of_some h

theorem registerEntries_preserves {entries : List RawOplogEntry} :
    ∀ {om om2 : OplogIndexMapper} {idx0 : Nat} {lg : List OplogEntry}
      {ts : BsonTimestamp} {idx : Nat},
      om.lookup ts = some idx → registerEntries om idx0 entries = .ok (lg, om2) →
      om2.lookup ts = some idx := by
  induction entries with
  | nil =>
    intro om om2 idx0 lg ts idx h hr
    simp only [registerEntries, Except.ok.injEq, Prod.mk.injEq] at hr
    obtain ⟨-, rfl⟩ := hr
    exact h
  | cons e rest ih =>
    intro om om2 idx0 lg ts idx h hr
    simp only [registerEntries] at hr
    split at hr
    · exact absurd hr (by simp)
    · rename_i om3 hset
      split at hr
      · exact absurd hr (by simp)
      · rename_i entries2 om4 hrec
        simp only [Except.ok.injEq, Prod.mk.injEq] at hr
        obtain ⟨-, rfl⟩ := hr
        exact ih (set_index_preserves h hset) hrec

theorem parse_log_line_preserves {l : LogLine} {pm : PortMapper} {om : OplogIndexMapper}
    {ev : LogEvent} {pm2 : PortMapper} {om2 : OplogIndexMapper} {ts : BsonTimestamp}
    {idx : Nat} (h : om.lookup ts = some idx)
    (hp : parse_log_line l pm om = .ok (ev, pm2, om2)) : om2.lookup ts = some idx := by
  unfold parse_log_line at hp
  simp only [] at hp
  split at hp
  · exact absurd hp (by simp)
  · rename_i lg om3 hreg
    split at hp
    · exact absurd hp (by simp)
    · split at hp
      · exact absurd hp (by simp)
      · simp only [Except.ok.injEq, Prod.mk.injEq] at hp
        obtain ⟨-, -, rfl⟩ := hp
        exact registerEntries_preserves h hreg

theorem translateLines_preserves {lines : List LogLine} :
    ∀ {pm pm2 : PortMapper} {om om2 : OplogIndexMapper} {ts : BsonTimestamp} {idx : Nat},
      om.lookup ts = some idx → translateLines lines pm om = .ok (pm2, om2) →
      om2.lookup ts = some idx := by
  induction lines with
  | nil =>
    intro pm pm2 om om2 ts idx h ht
    simp only [translateLines, Except.ok.injEq, Prod.mk.injEq] at ht
    obtain ⟨-, rfl⟩ := ht
    exact h
  | cons l rest ih =>
    intro pm pm2 om om2 ts idx h ht
    simp only [translateLines] at ht
    split at ht
    · exact absurd ht (by simp)
    · rename_i ev pm3 om3 hp
      exact ih (parse_log_line_preserves h hp) ht

theorem set_index_conflict {om : OplogIndexMapper} {ts : BsonTimestamp} {idx idx2 : Nat}
    (h : om.lookup ts = some idx) (hne : idx ≠ idx2) :
    om.set_index ts idx2 = .error .nonMonotonicLog := by
  unfold OplogIndexMapper.set_index
  rw [h]
  simp [hne]

theorem registerEntries_conflict {om : OplogIndexMapper} {idx : Nat}
    {entry : RawOplogEntry} {rest : List RawOplogEntry} {i : Nat}
    (h : om.lookup entry.ts = some i) (hne : i ≠ idx) :
    registerEntries om idx (entry :: rest) = .error .nonMonotonicLog := by
  simp only [registerEntries, set_index_conflict h hne]

theorem registerEntries_error_aborts {l : LogLine} {pm : PortMapper} {om : OplogIndexMapper}
    (hreg : registerEntries om 0 l.obj.state.log = .error .nonMonotonicLog) :
    parse_log_line l pm om = .error .nonMonotonicLog ∧
    ∀ (current : SystemState) (rest : List LogLine),
      processLines pm om current (l :: rest) = .error .nonMonotonicLog := by
  have hparse : parse_log_line l pm om = .error .nonMonotonicLog := by
    unfold parse_log_line
    simp only []
    rw [hreg]
  refine ⟨hparse, ?_⟩
  intro current rest
  unfold processLines
  rw [hparse]

/-- C1 (amended): the oplog index mapper is a single shared instance keyed on
optime alone — `main` creates one mapper for the whole run and `set_index` /
`get_index` carry no server identity — so a registration made while
translating one server's event is visible to lookups made for every other
server: a successful `set_index` makes the optime resolvable at its
registered index by every later `get_index`, the binding persisting through
any later registration, any later log walk, any later translated event, and
any number of later translated events, whichever server's commit point asks.
Coincidentally equal optimes at different log positions do not keep
independent per-server indices: the re-registration fails the
conflicting-index check, which fails the log walk and aborts the whole run
with `NonMonotonicLog`, producing no snapshot and processing no further
events. -/
theorem C1_shared_mapper_amended :
    (∀ (om om2 : OplogIndexMapper) (ts : BsonTimestamp) (idx : Nat),
        om.set_index ts idx = .ok om2 → om2.get_index ts = .ok idx) ∧
    (∀ (om om2 : OplogIndexMapper) (ts ts2 : BsonTimestamp) (idx idx2 : Nat),
        om.get_index ts = .ok idx → om.set_index ts2 idx2 = .ok om2 →
        om2.get_index ts = .ok idx) ∧
    (∀ (om om2 : OplogIndexMapper) (entries : List RawOplogEntry) (idx0 : Nat)
        (lg : List OplogEntry) (ts : BsonTimestamp) (idx : Nat),
        om.get_index ts = .ok idx → registerEntries om idx0 entries = .ok (lg, om2) →
        om2.get_index ts = .ok idx) ∧
    (∀ (l : LogLine) (pm : PortMapper) (om : OplogIndexMapper) (ev : LogEvent)
        (pm2 : PortMapper) (om2 : OplogIndexMapper) (ts : BsonTimestamp) (idx : Nat),
        om.get_index ts = .ok idx → parse_log_line l pm om = .ok (ev, pm2, om2) →
        om2.get_index ts = .ok idx) ∧
    (∀ (lines : List LogLine) (pm pm2 : PortMapper) (om om2 : OplogIndexMapper)
        (ts : BsonTimestamp) (idx : Nat),
        om.get_index ts = .ok idx → translateLines lines pm om = .ok (pm2, om2) →
        om2.get_index ts = .ok idx) ∧
    (∀ (om : OplogIndexMapper) (ts : BsonTimestamp) (idx idx2 : Nat),
        om.get_index ts = .ok idx → idx ≠ idx2 →
        om.set_index ts idx2 = .error .nonMonotonicLog) ∧
    (∀ (om : OplogIndexMapper) (idx : Nat) (entry : RawOplogEntry)
        (rest : List RawOplogEntry) (i : Nat),
        om.get_index entry.ts = .ok i → i ≠ idx →
        registerEntries om idx (entry :: rest) = .error .nonMonotonicLog) ∧
    (∀ (l : LogLine) (pm : PortMapper) (om : OplogIndexMapper)
        (current : SystemState) (rest : List LogLine),
        registerEntries om 0 l.obj.state.log = .error .nonMonotonicLog →
        parse_log_line l pm om = .error .nonMonotonicLog ∧
        processLines pm om current (l :: rest) = .error .nonMonotonicLog) := by
  refine ⟨?_, ?_, ?_, ?_, ?_, ?_, ?_, ?_⟩
  · intro om om2 ts idx h
    unfold OplogIndexMapper.set_index at h
    split at h
    · rename_i i hi
      split at h
      · rename_i hidx
        cases h
        subst hidx
        simp [OplogIndexMapper.get_index, hi]
      · exact absurd h (by simp)
    · rename_i hi
      cases h
      have hi2 : omLookup om.entries ts = none := hi
      have := omLookup_append_of_none hi2 idx
      simp [OplogIndexMapper.get_index, OplogIndexMapper.lookup, this]
  · intro om om2 ts ts2 idx idx2 h hs
    exact get_index_ok_iff.mpr (set_index_preserves (get_index_ok_iff.mp h) hs)
  · intro om om2 entries idx0 lg ts idx h hr
    exact get_index_ok_iff.mpr (registerEntries_preserves (get_index_ok_iff.mp h) hr)
  · intro l pm om ev pm2 om2 ts idx h hp
    exact get_index_ok_iff.mpr (parse_log_line_preserves (get_index_ok_iff.mp h) hp)
  · intro lines pm pm2 om om2 ts idx h ht
    exact get_index_ok_iff.mpr (translateLines_preserves (get_index_ok_iff.mp h) ht)
  · intro om ts idx idx2 h hne
    exact set_index_conflict (get_index_ok_iff.mp h) hne
  · intro om idx entry rest i h hne
    exact registerEntries_conflict (get_index_ok_iff.mp h) hne
  · intro l pm om current rest hreg
    exact ⟨(registerEntries_error_aborts hreg).1,
      (registerEntries_error_aborts hreg).2 current rest⟩

/-- Witness for C1 (amended): `tsShared` registered at index 0 stays
resolvable after translating the whole of server B's event, and server C's log
reporting `tsShared` at a different position aborts the run with
NonMonotonicLog (shown both from the theorem and on the full concrete run
over `[lineA, lineC]`). -/
theorem C1_shared_mapper_amended_witness :
    OplogIndexMapper.init.set_index tsShared 0 = .ok ⟨[(tsShared, 0)]⟩ ∧
    (⟨[(tsShared, 0)]⟩ : OplogIndexMapper).get_index tsShared = .ok 0 ∧
    (∃ pm2 om2, translateLines [lineB] PortMapper.init ⟨[(tsShared, 0)]⟩ = .ok (pm2, om2) ∧
      om2.get_index tsShared = .ok 0) ∧
    (⟨[(tsShared, 0)]⟩ : OplogIndexMapper).set_index tsShared 1 = .error .nonMonotonicLog ∧
    registerEntries ⟨[(tsShared, 0), (tsOther, 0)]⟩ 1 [⟨tsShared, 2⟩] =
      .error .nonMonotonicLog ∧
    registerEntries ⟨[(tsShared, 0)]⟩ 0 lineC.obj.state.log = .error .nonMonotonicLog ∧
    (parse_log_line lineC PortMapper.init ⟨[(tsShared, 0)]⟩ = .error .nonMonotonicLog ∧
      processLines PortMapper.init ⟨[(tsShared, 0)]⟩ (initialState 3) [lineC] =
        .error .nonMonotonicLog) ∧
    processLines PortMapper.init OplogIndexMapper.init (initialState 3) [lineA, lineC] =
      .error .nonMonotonicLog :=
  ⟨rfl,
   C1_shared_mapper_amended.1 OplogIndexMapper.init ⟨[(tsShared, 0)]⟩ tsShared 0 rfl,
   ⟨⟨[27018]⟩, ⟨[(tsShared, 0)]⟩, rfl,
    C1_shared_mapper_amended.2.2.2.2.1 [lineB] PortMapper.init ⟨[27018]⟩
      ⟨[(tsShared, 0)]⟩ ⟨[(tsShared, 0)]⟩ tsShared 0 rfl rfl⟩,
   C1_shared_mapper_amended.2.2.2.2.2.1 ⟨[(tsShared, 0)]⟩ tsShared 0 1 rfl (by decide),
   C1_shared_mapper_amended.2.2.2.2.2.2.1 ⟨[(tsShared, 0), (tsOther, 0)]⟩ 1
     ⟨tsShared, 2⟩ [] 0 rfl (by decide),
   rfl,
   C1_shared_mapper_amended.2.2.2.2.2.2.2 lineC PortMapper.init ⟨[(tsShared, 0)]⟩
     (initialState 3) [] rfl,
   rfl⟩

/-- C7 counterexample: server B's commit point references `tsShared`, an
optime that never appears in B's own reported log (B's log is empty), yet —
because the mapper is shared across servers — translating B's line after A's
succeeds: the run over both lines completes, producing one snapshot per
event, instead of failing with UnknownOplogReference. -/
theorem C7_unknown_optime_counterexample :
    rawB.state.log = [] ∧
    rawB.state.commitPoint.ts = tsShared ∧
    ((processLines PortMapper.init OplogIndexMapper.init (initialState 2)
        [lineA, lineB]).map fun r => r.1.length) = .ok 2 := by
  refine ⟨rfl, rfl, ?_⟩
  rfl

/-- C7 (amended): if a raw event's commit point references an optime that was
never registered by any event processed so far — including this event's own
just-walked log — then translation fails with UnknownOplogReference, no
snapshot is produced for the event, and the whole run aborts, processing no
further events. -/
theorem C7_unknown_optime_aborts (l : LogLine) (pm : PortMapper)
    (om om2 : OplogIndexMapper) (log : List OplogEntry)
    (hreg : registerEntries om 0 l.obj.state.log = .ok (log, om2))
    (hts : om2.lookup l.obj.state.commitPoint.ts = none) :
    parse_log_line l pm om = .error .unknownOplogReference ∧
    ∀ (current : SystemState) (rest : List LogLine),
      processLines pm om current (l :: rest) = .error .unknownOplogReference := by
  have hparse : parse_log_line l pm om = .error .unknownOplogReference := by
    unfold parse_log_line
    simp only []
    rw [hreg]
    simp [OplogIndexMapper.get_index, hts]
  refine ⟨hparse, ?_⟩
  intro current rest
  unfold processLines
  rw [hparse]

/-- Witness for C7 (amended): translating `lineB` with fresh mappers fails
and aborts the run at once. -/
theorem C7_unknown_optime_aborts_witness :
    registerEntries OplogIndexMapper.init 0 lineB.obj.state.log =
      .ok ([], OplogIndexMapper.init) ∧
    OplogIndexMapper.init.lookup lineB.obj.state.commitPoint.ts = none ∧
    processLines PortMapper.init OplogIndexMapper.init (initialState 2) [lineB] =
      .error .unknownOplogReference :=
  ⟨rfl, rfl,
   (C7_unknown_optime_aborts lineB PortMapper.init OplogIndexMapper.init
      OplogIndexMapper.init [] rfl rfl).2 (initialState 2) []⟩

theorem genAux_characterization (matchFn : String → Option (Nat × String))
    (jsonFn : String → Option TraceObj) (name : String) (lines : List String) :
    ∀ k : Nat,
      (∀ line ∈ lines, ∀ ts js, matchFn line = some (ts, js) → jsonFn js ≠ none) →
      genAux matchFn jsonFn name k lines =
        .ok ((List.enumFrom k lines).filterMap fun p =>
          match matchFn p.2 with
          | none => none
          | some (ts, js) => (jsonFn js).map fun obj =>
              { timestamp := ts
                location := name ++ ":" ++ toString (p.1 + 1)
                line := p.2
                obj := obj }) := by
  induction lines with
  | nil => intro k _; rfl
  | cons line rest ih =>
    intro k hdec
    have hrest : ∀ l2 ∈ rest, ∀ ts js, matchFn l2 = some (ts, js) → jsonFn js ≠ none :=
      fun l2 hm => hdec l2 (List.mem_cons_of_mem line hm)
    cases hm : matchFn line with
    | none =>
      simp only [genAux, hm, List.enumFrom, List.filterMap_cons]
      exact ih (k + 1) hrest
    | some p =>
      obtain ⟨ts, js⟩ := p
      have hj : jsonFn js ≠ none := hdec line (List.mem_cons_self line rest) ts js hm
      obtain ⟨obj, hobj⟩ := Option.ne_none_iff_exists'.mp hj
      simp only [genAux, hm, hobj, List.enumFrom, List.filterMap_cons, Option.map_some',
        ih (k + 1) hrest]

/-- C10: a line that does not match the trace-line pattern is silently
skipped — neither yielded nor reported as an error — while the per-source
line counter still advances; consequently every yielded event's location is
its true 1-based line number in the original source, as exhibited by the
closed form of `gen`: the filter map over the numbered lines. -/
theorem C10_nonmatching_skipped :
    (∀ (matchFn : String → Option (Nat × String)) (jsonFn : String → Option TraceObj)
        (name line : String) (k : Nat) (rest : List String), matchFn line = none →
        genAux matchFn jsonFn name k (line :: rest) = genAux matchFn jsonFn name (k + 1) rest) ∧
    ∀ (matchFn : String → Option (Nat × String)) (jsonFn : String → Option TraceObj)
      (name : String) (lines : List String),
      (∀ line ∈ lines, ∀ ts js, matchFn line = some (ts, js) → jsonFn js ≠ none) →
      gen matchFn jsonFn name lines =
        .ok ((List.enumFrom 0 lines).filterMap fun p =>
          match matchFn p.2 with
          | none => none
          | some (ts, js) => (jsonFn js).map fun obj =>
              { timestamp := ts
                location := name ++ ":" ++ toString (p.1 + 1)
                line := p.2
                obj := obj }) := by
  constructor
  · intro matchFn jsonFn name line k rest hm
    simp [genAux, hm]
  · intro matchFn jsonFn name lines hdec
    exact genAux_characterization matchFn jsonFn name lines 0 hdec

/-- Witness for C10: a two-line source whose first line does not match; the
yielded event is numbered with its true line number 2. -/
theorem C10_nonmatching_skipped_witness :
    matchW "x" = none ∧
    genAux matchW jsonW "f.log" 0 ["x", "T"] = genAux matchW jsonW "f.log" 1 ["T"] ∧
    gen matchW jsonW "f.log" ["x", "T"] =
      .ok [{ timestamp := 7, location := "f.log:2", line := "T", obj := rawA }] := by
  refine ⟨by decide, C10_nonmatching_skipped.1 matchW jsonW "f.log" "x" 0 ["T"] (by decide), ?_⟩
  rw [C10_nonmatching_skipped.2 matchW jsonW "f.log" ["x", "T"] ?_]
  · rfl
  · intro line hl ts js hm
    rcases List.mem_cons.mp hl with rfl | hl2
    · simp [matchW] at hm
    · rcases List.mem_cons.mp hl2 with rfl | hl3
      · simp only [matchW, if_pos rfl, Option.some.injEq, Prod.mk.injEq] at hm
        obtain ⟨-, rfl⟩ := hm
        simp [jsonW]
      · exact absurd hl3 (by simp)

theorem llLt_ok_true_ts {a b : LogLine} (h : llLt a b = .ok true) :
    a.timestamp ≤ b.timestamp := by
  unfold llLt at h
  split at h
  · simp at h
  · split at h
    · rename_i hts
      simp only [Except.ok.injEq, decide_eq_true_eq] at h
      exact Nat.le_of_lt h
    · rename_i hts
      simp only [ne_eq, not_not] at hts
      exact Nat.le_of_eq hts

theorem llLt_ok_false_ts {a b : LogLine} (h : llLt a b = .ok false) :
    b.timestamp ≤ a.timestamp := by
  unfold llLt at h
  split at h
  · rename_i heq
    subst heq
    exact Nat.le_refl _
  · split at h
    · rename_i hts
      simp only [Except.ok.injEq, decide_eq_false_iff_not] at h
      exact Nat.le_of_not_lt h
    · rename_i hts
      simp only [ne_eq, not_not] at hts
      exact Nat.le_of_eq hts.symm

theorem llLt_ok_of {a b : LogLine}
    (h : a.timestamp = b.timestamp → a.location = b.location → a.line = b.line → a = b) :
    ∃ r, llLt a b = .ok r := by
  unfold llLt
  split
  · exact ⟨false, rfl⟩
  · split
    · exact ⟨_, rfl⟩
    · split
      · exact ⟨_, rfl⟩
      · split
        · exact ⟨_, rfl⟩
        · rename_i hne hts hloc hline
          simp only [ne_eq, not_not] at hts hloc hline
          exact absurd (h hts hloc hline) hne

theorem findMin_none_flatten {ss : List (List LogLine)}
    (h : findMin ss = .ok none) : ss.flatten = [] := by
  induction ss with
  | nil => rfl
  | cons s rest ih =>
    cases s with
    | nil =>
      simp only [findMin] at h
      split at h
      · exact absurd h (by simp)
      · rename_i hfm
        simp [List.flatten_cons, ih hfm]
      · exact absurd h (by simp)
    | cons x t =>
      simp only [findMin] at h
      split at h
      · exact absurd h (by simp)
      · exact absurd h (by simp)
      · split at h <;> exact absurd h (by simp)

theorem findMin_some_get {ss : List (List LogLine)} {k : Nat} {h : LogLine}
    (hfm : findMin ss = .ok (some (k, h))) : ∃ t, ss[k]? = some (h :: t) := by
  induction ss generalizing k with
  | nil => simp [findMin] at hfm
  | cons s rest ih =>
    cases s with
    | nil =>
      simp only [findMin] at hfm
      split at hfm
      · exact absurd hfm (by simp)
      · exact absurd hfm (by simp)
      · rename_i k2 bh hrec
        simp only [Except.ok.injEq, Option.some.injEq, Prod.mk.injEq] at hfm
        obtain ⟨rfl, rfl⟩ := hfm
        obtain ⟨t, ht⟩ := ih hrec
        exact ⟨t, by simpa using ht⟩
    | cons x t =>
      simp only [findMin] at hfm
      split at hfm
      · exact absurd hfm (by simp)
      · simp only [Except.ok.injEq, Option.some.injEq, Prod.mk.injEq] at hfm
        obtain ⟨rfl, rfl⟩ := hfm
        exact ⟨t, by simp⟩
      · rename_i k2 bh hrec
        split at hfm
        · exact absurd hfm (by simp)
        · simp only [Except.ok.injEq, Option.some.injEq, Prod.mk.injEq] at hfm
          obtain ⟨rfl, rfl⟩ := hfm
          obtain ⟨t2, ht2⟩ := ih hrec
          exact ⟨t2, by simpa using ht2⟩
        · simp only [Except.ok.injEq, Option.some.injEq, Prod.mk.injEq] at hfm
          obtain ⟨rfl, rfl⟩ := hfm
          exact ⟨t, by simp⟩

theorem findMin_min_ts {ss : List (List LogLine)} {k : Nat} {h : LogLine}
    (hfm : findMin ss = .ok (some (k, h))) :
    ∀ s ∈ ss, ∀ x, s.head? = some x → h.timestamp ≤ x.timestamp := by
  induction ss generalizing k h with
  | nil => simp [findMin] at hfm
  | cons s rest ih =>
    cases s with
    | nil =>
      simp only [findMin] at hfm
      split at hfm
      · exact absurd hfm (by simp)
      · exact absurd hfm (by simp)
      · rename_i k2 bh hrec
        simp only [Except.ok.injEq, Option.some.injEq, Prod.mk.injEq] at hfm
        obtain ⟨rfl, rfl⟩ := hfm
        intro s2 hs2 x hx
        rcases List.mem_cons.mp hs2 with rfl | hmem
        · simp at hx
        · exact ih hrec s2 hmem x hx
    | cons y t =>
      simp only [findMin] at hfm
      split at hfm
      · exact absurd hfm (by simp)
      · rename_i hrec
        simp only [Except.ok.injEq, Option.some.injEq, Prod.mk.injEq] at hfm
        obtain ⟨rfl, rfl⟩ := hfm
        intro s2 hs2 x hx
        rcases List.mem_cons.mp hs2 with rfl | hmem
        · simp only [List.head?_cons, Option.some.injEq] at hx
          subst hx
          exact Nat.le_refl _
        · cases s2 with
          | nil => simp at hx
          | cons a t2 =>
            have hfl := findMin_none_flatten hrec
            have hx2 : a ∈ rest.flatten :=
              List.mem_flatten.mpr ⟨a :: t2, hmem, List.mem_cons_self a t2⟩
            rw [hfl] at hx2
            simp at hx2
      · rename_i k2 bh hrec
        split at hfm
        · exact absurd hfm (by simp)
        · rename_i hlt
          simp only [Except.ok.injEq, Option.some.injEq, Prod.mk.injEq] at hfm
          obtain ⟨rfl, rfl⟩ := hfm
          intro s2 hs2 x hx
          rcases List.mem_cons.mp hs2 with rfl | hmem
          · simp only [List.head?_cons, Option.some.injEq] at hx
            subst hx
            exact llLt_ok_true_ts hlt
          · exact ih hrec s2 hmem x hx
        · rename_i hlt
          simp only [Except.ok.injEq, Option.some.injEq, Prod.mk.injEq] at hfm
          obtain ⟨rfl, rfl⟩ := hfm
          intro s2 hs2 x hx
          rcases List.mem_cons.mp hs2 with rfl | hmem
          · simp only [List.head?_cons, Option.some.injEq] at hx
            subst hx
            exact Nat.le_refl _
          · exact Nat.le_trans (llLt_ok_false_ts hlt) (ih hrec s2 hmem x hx)

theorem getD_eq_of_getElem?_eq_some {α : Type} {l : List α} {n : Nat} {a : α} (d : α)
    (h : l[n]? = some a) : l.getD n d = a := by
  induction l generalizing n with
  | nil => simp at h
  | cons x rest ih =>
    cases n with
    | zero => simp_all
    | succ m =>
      simp only [List.getElem?_cons_succ] at h
      simpa using ih h

theorem lt_length_of_getElem?_eq_some {α : Type} {l : List α} {n : Nat} {a : α}
    (h : l[n]? = some a) : n < l.length := by
  by_contra hk
  rw [List.getElem?_eq_none (Nat.le_of_not_lt hk)] at h
  simp at h

theorem crossOrd_tail {s : List LogLine} {rest : List (List LogLine)}
    (h : CrossOrd (s :: rest)) : CrossOrd rest := by
  intro i hi j hj hij a ha b hb hts hloc hline
  refine h (i + 1) (by simpa using Nat.succ_lt_succ hi) (j + 1)
    (by simpa using Nat.succ_lt_succ hj) (by omega) a ?_ b ?_ hts hloc hline
  · simpa [List.getD_cons_succ] using ha
  · simpa [List.getD_cons_succ] using hb

theorem findMin_ok {ss : List (List LogLine)} (hco : CrossOrd ss) :
    ∃ r, findMin ss = .ok r := by
  induction ss with
  | nil => exact ⟨none, rfl⟩
  | cons s rest ih =>
    obtain ⟨r, hr⟩ := ih (crossOrd_tail hco)
    cases s with
    | nil =>
      cases r with
      | none => exact ⟨none, by simp [findMin, hr]⟩
      | some p => exact ⟨some (p.1 + 1, p.2), by simp [findMin, hr]⟩
    | cons y t =>
      cases r with
      | none => exact ⟨some (0, y), by simp [findMin, hr]⟩
      | some p =>
        obtain ⟨k, bh⟩ := p
        obtain ⟨t2, ht2⟩ := findMin_some_get hr
        have hk : k < rest.length := lt_length_of_getElem?_eq_some ht2
        have hpair : bh.timestamp = y.timestamp → bh.location = y.location →
            bh.line = y.line → bh = y := by
          intro hts hloc hline
          refine hco (k + 1) (by simpa using Nat.succ_lt_succ hk) 0 (by simp)
            (by omega) bh ?_ y (by simp) hts hloc hline
          rw [List.getD_cons_succ, getD_eq_of_getElem?_eq_some [] ht2]
          exact List.mem_cons_self bh t2
        obtain ⟨rr, hrr⟩ := llLt_ok_of hpair
        cases rr with
        | true => exact ⟨some (k + 1, bh), by simp [findMin, hr, hrr]⟩
        | false => exact ⟨some (0, y), by simp [findMin, hr, hrr]⟩

theorem popAt_eq {ss : List (List LogLine)} {k : Nat} {h : LogLine} {t : List LogLine}
    (hk : ss[k]? = some (h :: t)) : popAt ss k = ss.set k t := by
  unfold popAt
  rw [getD_eq_of_getElem?_eq_some [] hk]
  rfl

theorem flatten_set_perm {ss : List (List LogLine)} {k : Nat} {h : LogLine}
    {t : List LogLine} (hk : ss[k]? = some (h :: t)) :
    (h :: (ss.set k t).flatten).Perm ss.flatten := by
  induction ss generalizing k with
  | nil => simp at hk
  | cons s rest ih =>
    cases k with
    | zero =>
      simp only [List.getElem?_cons_zero, Option.some.injEq] at hk
      subst hk
      simp only [List.set_cons_zero, List.flatten_cons, List.cons_append]
      exact List.Perm.refl _
    | succ m =>
      simp only [List.getElem?_cons_succ] at hk
      simp only [List.set_cons_succ, List.flatten_cons]
      exact List.perm_middle.symm.trans ((ih hk).append_left s)

theorem mem_set_cases {s2 t : List LogLine} {ss : List (List LogLine)} {k : Nat}
    (h : s2 ∈ ss.set k t) : s2 = t ∨ s2 ∈ ss := by
  induction ss generalizing k with
  | nil => simp at h
  | cons s rest ih =>
    cases k with
    | zero =>
      rcases List.mem_cons.mp h with rfl | hm
      · exact Or.inl rfl
      · exact Or.inr (List.mem_cons_of_mem s hm)
    | succ m =>
      rcases List.mem_cons.mp h with rfl | hm
      · exact Or.inr (List.mem_cons_self _ _)
      · rcases ih hm with rfl | hm2
        · exact Or.inl rfl
        · exact Or.inr (List.mem_cons_of_mem s hm2)

theorem getD_set_subset {ss : List (List LogLine)} {k : Nat} {h : LogLine}
    {t : List LogLine} (hk : ss[k]? = some (h :: t)) {i : Nat} {a : LogLine}
    (ha : a ∈ (ss.set k t).getD i []) : a ∈ ss.getD i [] := by
  by_cases hik : i = k
  · subst hik
    have hlt : i < ss.length := lt_length_of_getElem?_eq_some hk
    have h1 : (ss.set i t)[i]? = some t := List.getElem?_set_eq_of_lt t hlt
    rw [getD_eq_of_getElem?_eq_some [] h1] at ha
    rw [getD_eq_of_getElem?_eq_some [] hk]
    exact List.mem_cons_of_mem h ha
  · have h1 : (ss.set k t)[i]? = ss[i]? := List.getElem?_set_ne (fun hh => hik hh.symm)
    cases h2 : ss[i]? with
    | none =>
      rw [List.getD_eq_getElem?_getD, h1, h2] at ha
      simp at ha
    | some s2 =>
      rw [getD_eq_of_getElem?_eq_some [] (h1.trans h2)] at ha
      rw [getD_eq_of_getElem?_eq_some [] h2]
      exact ha

theorem crossOrd_set {ss : List (List LogLine)} {k : Nat} {h : LogLine}
    {t : List LogLine} (hk : ss[k]? = some (h :: t)) (hco : CrossOrd ss) :
    CrossOrd (ss.set k t) := by
  intro i hi j hj hij a ha b hb hts hloc hline
  rw [List.length_set] at hi hj
  exact hco i hi j hj hij a (getD_set_subset hk ha) b (getD_set_subset hk hb) hts hloc hline

theorem mem_of_getElem?_eq_some {α : Type} {l : List α} {n : Nat} {a : α}
    (h : l[n]? = some a) : a ∈ l := by
  induction l generalizing n with
  | nil => simp at h
  | cons x rest ih =>
    cases n with
    | zero =>
      simp only [List.getElem?_cons_zero, Option.some.injEq] at h
      exact h ▸ List.mem_cons_self x rest
    | succ m =>
      simp only [List.getElem?_cons_succ] at h
      exact List.mem_cons_of_mem x (ih h)

theorem getElem?_eq_some_of_mem {α : Type} {l : List α} {a : α} (h : a ∈ l) :
    ∃ n : Nat, l[n]? = some a := by
  induction l with
  | nil => simp at h
  | cons x rest ih =>
    rcases List.mem_cons.mp h with rfl | hm
    · exact ⟨0, by simp⟩
    · obtain ⟨n, hn⟩ := ih hm
      exact ⟨n + 1, by simpa using hn⟩

theorem sorted_head_ts {s : List LogLine} (hs : List.Pairwise tsLe s) {x : LogLine}
    (hx : x ∈ s) : ∃ hd, s.head? = some hd ∧ hd.timestamp ≤ x.timestamp := by
  cases s with
  | nil => simp at hx
  | cons a tl =>
    refine ⟨a, rfl, ?_⟩
    rcases List.mem_cons.mp hx with rfl | hm
    · exact Nat.le_refl _
    · exact (List.pairwise_cons.mp hs).1 x hm

theorem flatten_nil_all_nil {ss : List (List LogLine)} (h : ss.flatten = [])
    {s : List LogLine} (hs : s ∈ ss) : s = [] := by
  cases s with
  | nil => rfl
  | cons a t =>
    have : a ∈ ss.flatten := List.mem_flatten.mpr ⟨a :: t, hs, List.mem_cons_self a t⟩
    rw [h] at this
    simp at this

theorem kMergeFuel_perm :
    ∀ (fuel : Nat) (ss : List (List LogLine)) (out : List LogLine),
      ss.flatten.length ≤ fuel → kMergeFuel fuel ss = .ok out → out.Perm ss.flatten := by
  intro fuel
  induction fuel with
  | zero =>
    intro ss out hle hm
    simp only [kMergeFuel] at hm
    injection hm with hout
    subst hout
    rw [List.length_eq_zero.mp (Nat.le_zero.mp hle)]
  | succ fuel ih =>
    intro ss out hle hm
    simp only [kMergeFuel] at hm
    split at hm
    · exact absurd hm (by simp)
    · rename_i hfm
      injection hm with hout
      subst hout
      rw [findMin_none_flatten hfm]
    · rename_i k h hfm
      split at hm
      · exact absurd hm (by simp)
      · rename_i rest2 hrec
        injection hm with hout
        subst hout
        obtain ⟨t, ht⟩ := findMin_some_get hfm
        rw [popAt_eq ht] at hrec
        have hperm := flatten_set_perm ht
        have hlen : (ss.set k t).flatten.length + 1 = ss.flatten.length := by
          simpa using hperm.length_eq
        have ihp := ih (ss.set k t) rest2 (by omega) hrec
        exact (ihp.cons h).trans hperm

theorem kMergeFuel_ok :
    ∀ (fuel : Nat) (ss : List (List LogLine)),
      ss.flatten.length ≤ fuel → CrossOrd ss → ∃ out, kMergeFuel fuel ss = .ok out := by
  intro fuel
  induction fuel with
  | zero => exact fun ss _ _ => ⟨[], rfl⟩
  | succ fuel ih =>
    intro ss hle hco
    obtain ⟨r, hr⟩ := findMin_ok hco
    cases r with
    | none => exact ⟨[], by simp [kMergeFuel, hr]⟩
    | some p =>
      obtain ⟨k, h⟩ := p
      obtain ⟨t, ht⟩ := findMin_some_get hr
      have hlen : (ss.set k t).flatten.length + 1 = ss.flatten.length := by
        simpa using (flatten_set_perm ht).length_eq
      obtain ⟨out2, hout2⟩ := ih (ss.set k t) (by omega) (crossOrd_set ht hco)
      exact ⟨h :: out2, by simp [kMergeFuel, hr, popAt_eq ht, hout2]⟩

theorem kMergeFuel_sorted :
    ∀ (fuel : Nat) (ss : List (List LogLine)) (out : List LogLine),
      ss.flatten.length ≤ fuel → (∀ s ∈ ss, List.Pairwise tsLe s) →
      kMergeFuel fuel ss = .ok out → List.Pairwise tsLe out := by
  intro fuel
  induction fuel with
  | zero =>
    intro ss out _ _ hm
    simp only [kMergeFuel] at hm
    injection hm with hout
    subst hout
    exact List.Pairwise.nil
  | succ fuel ih =>
    intro ss out hle hsort hm
    simp only [kMergeFuel] at hm
    split at hm
    · exact absurd hm (by simp)
    · injection hm with hout
      subst hout
      exact List.Pairwise.nil
    · rename_i k h hfm
      split at hm
      · exact absurd hm (by simp)
      · rename_i rest2 hrec
        injection hm with hout
        subst hout
        obtain ⟨t, ht⟩ := findMin_some_get hfm
        rw [popAt_eq ht] at hrec
        have hlen : (ss.set k t).flatten.length + 1 = ss.flatten.length := by
          simpa using (flatten_set_perm ht).length_eq
        have hsort2 : ∀ s2 ∈ ss.set k t, List.Pairwise tsLe s2 := by
          intro s2 hs2
          rcases mem_set_cases hs2 with rfl | hm2
          · exact (List.pairwise_cons.mp (hsort (h :: s2) (mem_of_getElem?_eq_some ht))).2
          · exact hsort s2 hm2
        refine List.pairwise_cons.mpr ⟨?_, ih (ss.set k t) rest2 (by omega) hsort2 hrec⟩
        intro x hx
        have hx2 : x ∈ (ss.set k t).flatten :=
          (kMergeFuel_perm fuel (ss.set k t) rest2 (by omega) hrec).mem_iff.mp hx
        have hx3 : x ∈ ss.flatten :=
          (flatten_set_perm ht).mem_iff.mp (List.mem_cons_of_mem h hx2)
        obtain ⟨s2, hs2, hxs2⟩ := List.mem_flatten.mp hx3
        obtain ⟨hd, hhd, hdx⟩ := sorted_head_ts (hsort s2 hs2) hxs2
        exact Nat.le_trans (findMin_min_ts hfm s2 hs2 hd hhd) hdx

theorem kMergeFuel_sublist :
    ∀ (fuel : Nat) (ss : List (List LogLine)) (out : List LogLine),
      ss.flatten.length ≤ fuel → kMergeFuel fuel ss = .ok out →
      ∀ s ∈ ss, s.Sublist out := by
  intro fuel
  induction fuel with
  | zero =>
    intro ss out hle hm s hs
    simp only [kMergeFuel] at hm
    injection hm with hout
    subst hout
    rw [flatten_nil_all_nil (List.length_eq_zero.mp (Nat.le_zero.mp hle)) hs]
  | succ fuel ih =>
    intro ss out hle hm s hs
    simp only [kMergeFuel] at hm
    split at hm
    · exact absurd hm (by simp)
    · rename_i hfm
      injection hm with hout
      subst hout
      rw [flatten_nil_all_nil (findMin_none_flatten hfm) hs]
    · rename_i k h hfm
      split at hm
      · exact absurd hm (by simp)
      · rename_i rest2 hrec
        injection hm with hout
        subst hout
        obtain ⟨t, ht⟩ := findMin_some_get hfm
        rw [popAt_eq ht] at hrec
        have hlen : (ss.set k t).flatten.length + 1 = ss.flatten.length := by
          simpa using (flatten_set_perm ht).length_eq
        by_cases hseq : s = h :: t
        · subst hseq
          have hkl : k < ss.length := lt_length_of_getElem?_eq_some ht
          have htm : t ∈ ss.set k t :=
            mem_of_getElem?_eq_some (List.getElem?_set_eq_of_lt t hkl)
          exact (ih (ss.set k t) rest2 (by omega) hrec t htm).cons₂ h
        · obtain ⟨j, hj⟩ := getElem?_eq_some_of_mem hs
          have hjk : j ≠ k := by
            intro hh
            subst hh
            rw [ht] at hj
            exact hseq (Option.some.inj hj).symm
          have hsm : s ∈ ss.set k t := by
            have h2 : (ss.set k t)[j]? = some s := by
              rw [List.getElem?_set_ne (fun hh => hjk hh.symm)]
              exact hj
            exact mem_of_getElem?_eq_some h2
          exact (ih (ss.set k t) rest2 (by omega) hrec s hsm).cons h

/-- Concrete log lines used by the merge witnesses. -/
def w1 : LogLine := ⟨1, "a.log:1", "p", rawA⟩

/-- Second line of the first witness source. -/
def w2 : LogLine := ⟨3, "a.log:2", "q", rawA⟩

/-- Line of the second witness source, timestamped between `w1` and `w2`. -/
def w3 : LogLine := ⟨2, "b.log:1", "r", rawB⟩

/-- Two lines with identical timestamps from two different sources. -/
def y1 : LogLine := ⟨5, "a.log:1", "s", rawA⟩

/-- Same timestamp as `y1`, different source. -/
def y2 : LogLine := ⟨5, "b.log:1", "u", rawB⟩

/-- C4: for every collection of per-source event sequences, each individually
sorted non-decreasing by timestamp, the k-way merge yields a sequence that is
sorted non-decreasing by timestamp and is a permutation of the union of the
inputs preserving each source's internal relative order.  The `CrossOrd`
hypothesis — distinct streams never hold two distinct events agreeing on
timestamp, location and line — holds of every collection `gen` produces,
because an event's timestamp and payload are computed from its line text and
its location is unique per source line. -/
theorem C4_merge_sorted_perm (ss : List (List LogLine))
    (hsort : ∀ s ∈ ss, List.Pairwise tsLe s) (hord : CrossOrd ss) :
    ∃ out, heapq_merge ss = .ok out ∧ List.Pairwise tsLe out ∧
      out.Perm ss.flatten ∧ ∀ s ∈ ss, s.Sublist out := by
  obtain ⟨out, hout⟩ := kMergeFuel_ok ss.flatten.length ss (Nat.le_refl _) hord
  exact ⟨out, hout,
    kMergeFuel_sorted ss.flatten.length ss out (Nat.le_refl _) hsort hout,
    kMergeFuel_perm ss.flatten.length ss out (Nat.le_refl _) hout,
    kMergeFuel_sublist ss.flatten.length ss out (Nat.le_refl _) hout⟩

/-- Witness for C4 at two concrete sorted sources. -/
theorem C4_merge_sorted_perm_witness :
    (∀ s ∈ [[w1, w2], [w3]], List.Pairwise tsLe s) ∧
    CrossOrd [[w1, w2], [w3]] ∧
    ∃ out, heapq_merge [[w1, w2], [w3]] = .ok out ∧ List.Pairwise tsLe out ∧
      out.Perm ([[w1, w2], [w3]] : List (List LogLine)).flatten ∧
      ∀ s ∈ [[w1, w2], [w3]], s.Sublist out :=
  ⟨by decide, by decide, C4_merge_sorted_perm [[w1, w2], [w3]] (by decide) (by decide)⟩

/-- C9: when events from two different sources carry identical timestamps the
merge still succeeds — no ordering or comparison error is raised, because the
`LogLine` comparison falls through to the distinct locations before ever
reaching the unorderable `obj` dicts — and the merged order is deterministic:
the merge is a function of its input, so identical inputs give identical
outputs. -/
theorem C9_merge_equal_timestamps (s1 s2 : List LogLine)
    (hloc : ∀ a ∈ s1, ∀ b ∈ s2, a.location ≠ b.location) :
    (∃ out, heapq_merge [s1, s2] = .ok out) ∧
    ∀ o1 o2, heapq_merge [s1, s2] = .ok o1 → heapq_merge [s1, s2] = .ok o2 →
      o1 = o2 := by
  constructor
  · refine kMergeFuel_ok _ _ (Nat.le_refl _) ?_
    intro i hi j hj hij a ha b hb hts hlc hline
    simp only [List.length_cons, List.length_nil, Nat.zero_add] at hi hj
    interval_cases i <;> interval_cases j
    · exact absurd rfl hij
    · exact absurd hlc (hloc a ha b hb)
    · exact absurd hlc.symm (hloc b hb a ha)
    · exact absurd rfl hij
  · intro o1 o2 h1 h2
    rw [h1] at h2
    exact Except.ok.inj h2

/-- Witness for C9 at two sources whose single events share a timestamp. -/
theorem C9_merge_equal_timestamps_witness :
    (∀ a ∈ [y1], ∀ b ∈ [y2], a.location ≠ b.location) ∧
    y1.timestamp = y2.timestamp ∧
    ∃ out, heapq_merge [[y1], [y2]] = .ok out :=
  ⟨by decide, rfl, (C9_merge_equal_timestamps [y1] [y2] (by decide)).1⟩
